import Mathlib

/-!
Verification of `creative-mongodb-queue` (`src/queue.js`).

Shallow embedding of the MongoDB-backed job queue in `src/queue.js`.

Modelling choices:
* A MongoDB collection is a `List (Record α)` in natural (insertion) order;
  `payload` is an opaque type parameter `α`.
* Timestamps are `Nat` milliseconds.  `_plusSecs s` = `now + s * 1000`
  (`new Date(Date.now() + s * 1e3)` in the source).
* `_id` values (MongoDB ObjectIds) are modelled as `Nat`s drawn from an
  explicitly threaded counter `nid`; `_ack()` tokens (random 16-byte hex
  strings, unique) are `Nat`s drawn from a threaded counter `tok`.
* A missing BSON field (`ack`, `deleted`) is `Option.none`; the Mongo query
  `{deleted: null}` matches exactly the records with `deleted = none`.
* `findOneAndUpdate` updates the single first matching document (in `_id`
  order when `sort: {_id: 1}` is given, natural order otherwise); this is
  `updateFirst` below.  The thrown `unknown ack` errors of `ping`/`ack` are
  modelled by the operations returning `none`.
-/

namespace MQueue

/-- A job document as persisted by `queue.js`:
`{_id, payload, visible, tries, ack?, deleted?}`. -/
structure Record (α : Type) where
  id      : Nat
  payload : α
  visible : Nat
  tries   : Nat
  ack     : Option Nat
  deleted : Option Nat
deriving DecidableEq

/-- The options of `Queue.connect`:
`{visibility = 30, delay = 0, deadQueue = null, maxRetries = 5, ...}`.
`hasDLQ` records whether `deadQueue` is non-null. -/
structure Config where
  visibility : Nat := 30
  delay      : Nat := 0
  maxRetries : Nat := 5
  hasDLQ     : Bool := false
deriving DecidableEq

/-- The helper `_plusSecs = s => new Date(Date.now() + s * 1e3)` (milliseconds). -/
def plusSecs (now s : Nat) : Nat := now + s * 1000

/-- The claim predicate of `get`/`size`:
`{ deleted: null, visible: { $lte: now } }`. -/
def claimableB (now : Nat) {α : Type} (r : Record α) : Bool :=
  r.deleted.isNone && decide (r.visible ≤ now)

/-- The `inFlight` predicate:
`{ ack: { $exists: true }, visible: { $gt: now }, deleted: null }`. -/
def inFlightB (now : Nat) {α : Type} (r : Record α) : Bool :=
  r.ack.isSome && decide (now < r.visible) && r.deleted.isNone

/-- The `ping`/`ack` predicate:
`{ ack, visible: { $gt: now }, deleted: null }`. -/
def ackMatch (now tok : Nat) {α : Type} (r : Record α) : Bool :=
  r.ack == some tok && decide (now < r.visible) && r.deleted.isNone

section Ops

variable {α : Type} [DecidableEq α]

/-- The document selected by `findOneAndUpdate(query, ..., {sort: {_id: 1}})`:
the claimable record with the smallest `_id` (leftmost on equal ids, which
cannot happen in MongoDB where `_id` is unique). -/
def findClaim (now : Nat) : List (Record α) → Option (Record α)
  | [] => none
  | r :: rs =>
    match findClaim now rs with
    | none => if claimableB now r then some r else none
    | some m => if claimableB now r && decide (r.id ≤ m.id) then some r else some m

/-- The update primitive `findOneAndUpdate` / `updateOne`: apply `f` to the first record
satisfying `p`, leave everything else unchanged. -/
def updateFirst (p : Record α → Bool) (f : Record α → Record α) :
    List (Record α) → List (Record α)
  | [] => []
  | r :: rs => if p r then f r :: rs else r :: updateFirst p f rs

/-- The atomic claim update of `get`:
`{ $inc: { tries: 1 }, $set: { ack: _ack(), visible: _plusSecs(visibility) } }`. -/
def claimUpdate (now vis tok : Nat) (r : Record α) : Record α :=
  { r with tries := r.tries + 1, ack := some tok, visible := plusSecs now vis }

/-- The value `get` returns to the caller: `{id, ack, payload, tries}`. -/
structure GetRes (α : Type) where
  id      : Nat
  ack     : Nat
  payload : α
  tries   : Nat
deriving DecidableEq

/-- Number of records whose `deleted` field is absent (termination measure
for the poisoned-record recursion in `get`). -/
def nonDeleted (l : List (Record α)) : Nat := l.countP fun r => r.deleted.isNone

end Ops



namespace Queue

variable {α : Type} [DecidableEq α]

/-- The produce operation `add(payload, {delay = this._delay})` on a list of payloads:
`visible = delay ? _plusSecs(delay) : _now()`, one record per payload with
`tries: 0` and no `ack`/`deleted` field, inserted in input order; returns the
inserted ids in input order.  Fresh `_id`s come from the threaded counter
`nid`. -/
def addCore (cfg : Config) (now : Nat) (dOpt : Option Nat) (ps : List α)
    (nid : Nat) (recs : List (Record α)) :
    List Nat × List (Record α) × Nat :=
  let delay := dOpt.getD cfg.delay
  let visible := if delay ≠ 0 then plusSecs now delay else now
  let docs := ps.enum.map fun q =>
    ({ id := nid + q.1, payload := q.2, visible := visible, tries := 0,
       ack := none, deleted := none } : Record α)
  (docs.map fun r => r.id, recs ++ docs, nid + ps.length)

/-- The polymorphic input of `add`: a single payload or an array of payloads
(`Array.isArray(payload)` dispatch in the source). -/
inductive Payloads (α : Type) where
  | single (p : α)
  | batch (ps : List α)

/-- The return value of `add`, mirroring the input shape:
`Array.isArray(payload) ? ids : ids[0]`. -/
inductive AddResult where
  | one (id : Nat)
  | many (ids : List Nat)
deriving DecidableEq

/-- The operation `add(payload, opts)`: single/batch dispatch around `addCore`. -/
def add (cfg : Config) (now : Nat) (dOpt : Option Nat) :
    Payloads α → Nat → List (Record α) → AddResult × List (Record α) × Nat
  | .single p, nid, recs =>
    let t := addCore cfg now dOpt [p] nid recs
    (.one (t.1.headD 0), t.2.1, t.2.2)
  | .batch ps, nid, recs =>
    let t := addCore cfg now dOpt ps nid recs
    (.many t.1, t.2.1, t.2.2)

/-- The internal `_moveToDLQ(msg)`: no-op without a DLQ; otherwise insert `msg` verbatim
into the DLQ collection and mark the source record deleted
(`updateOne({_id: msg._id}, {$set: {deleted: now}})`).  Since `_id` is unique
in MongoDB, the updated source document is the (unique) not-yet-deleted
record carrying `msg._id`. -/
def moveToDLQ (cfg : Config) (now : Nat) (msg : Record α)
    (src dlq : List (Record α)) : List (Record α) × List (Record α) :=
  if cfg.hasDLQ then
    (updateFirst (fun r => decide (r.id = msg.id) && r.deleted.isNone)
      (fun r => { r with deleted := some now }) src,
     dlq ++ [msg])
  else (src, dlq)

/-- Metric `total()` = `estimatedDocumentCount()`. -/
def total (recs : List (Record α)) : Nat := recs.length

/-- Metric `size()` = `countDocuments({deleted: null, visible: {$lte: now}})`. -/
def size (now : Nat) (recs : List (Record α)) : Nat :=
  recs.countP (claimableB now)

/-- Metric `inFlight()` = `countDocuments({ack: {$exists: true}, visible: {$gt: now}, deleted: null})`. -/
def inFlight (now : Nat) (recs : List (Record α)) : Nat :=
  recs.countP (inFlightB now)

/-- Metric `done()` = `countDocuments({deleted: {$exists: true}})`. -/
def done (recs : List (Record α)) : Nat :=
  recs.countP fun r => r.deleted.isSome

/-- The consume operation `get({visibility})`: atomically claim the smallest-`_id` record with
`deleted` absent and `visible ≤ now` (increment `tries`, set a fresh `ack`
token, advance `visible`); return `null` when nothing matches; when a DLQ is
configured and the post-increment `tries` exceeds `maxRetries`, move the
claimed record to the DLQ and recurse.  `_ack()` is evaluated once per call,
so the token counter advances on every invocation; the recursive call reuses
the same `now` (the wall clock is re-read in the source, a no-op here). -/
def get (cfg : Config) (now vis tok : Nat) (main dlq : List (Record α)) :
    Option (GetRes α) × List (Record α) × List (Record α) × Nat :=
  match hfc : findClaim now main with
  | none => (none, main, dlq, tok + 1)
  | some m =>
    if hgd : cfg.hasDLQ && decide (cfg.maxRetries < m.tries + 1) then
      let md := moveToDLQ cfg now (claimUpdate now vis tok m)
        (updateFirst (fun r => decide (r = m)) (fun _ => claimUpdate now vis tok m) main)
        dlq
      get cfg now vis (tok + 1) md.1 md.2
    else
      (some ⟨m.id, tok, m.payload, m.tries + 1⟩,
       updateFirst (fun r => decide (r = m)) (fun _ => claimUpdate now vis tok m) main,
       dlq, tok + 1)
termination_by nonDeleted main
decreasing_by
  simp only [moveToDLQ, Bool.and_eq_true, decide_eq_true_iff] at hgd ⊢
  rw [if_pos hgd.1]
  -- the record selected by the claim query is in the queue with `deleted` absent
  have hmc : ∀ {l : List (Record α)} {x : Record α},
      findClaim now l = some x → x ∈ l ∧ x.deleted = none := by
    intro l
    induction l with
    | nil => intro x h; simp [findClaim] at h
    | cons r rs ih =>
      intro x h
      cases hrc : findClaim now rs with
      | none =>
        simp only [findClaim, hrc] at h
        rw [Option.ite_none_right_eq_some, Option.some_inj] at h
        obtain ⟨hcr, rfl⟩ := h
        simp only [claimableB, Bool.and_eq_true, Option.isNone_iff_eq_none] at hcr
        exact ⟨List.mem_cons_self _ _, hcr.1⟩
      | some m0 =>
        simp only [findClaim, hrc] at h
        rcases ite_eq_iff.mp h with ⟨hc, he⟩ | ⟨hc, he⟩
        · cases Option.some_inj.mp he
          rw [Bool.and_eq_true] at hc
          have hcr := hc.1
          simp only [claimableB, Bool.and_eq_true, Option.isNone_iff_eq_none] at hcr
          exact ⟨List.mem_cons_self _ _, hcr.1⟩
        · cases Option.some_inj.mp he
          obtain ⟨hmem, hdel⟩ := ih hrc
          exact ⟨List.mem_cons_of_mem _ hmem, hdel⟩
  obtain ⟨hm, hdm⟩ := hmc hfc
  -- the claim update replaces a non-deleted record by a non-deleted record,
  -- so it preserves the count of non-deleted records
  have hpres : ∀ l : List (Record α),
      nonDeleted (updateFirst (fun r => decide (r = m))
        (fun _ => claimUpdate now vis tok m) l) = nonDeleted l := by
    intro l
    induction l with
    | nil => rfl
    | cons r rs ih =>
      simp only [updateFirst]
      by_cases hr : r = m
      · subst hr
        rw [if_pos (by simp)]
        simp [nonDeleted, List.countP_cons, claimUpdate, hdm]
      · rw [if_neg (by simp [hr])]
        simp only [nonDeleted, List.countP_cons] at ih ⊢
        omega
  -- marking the first non-deleted record carrying the claimed id as deleted
  -- then strictly shrinks that count
  have hless : ∀ l : List (Record α), m ∈ l →
      nonDeleted (updateFirst
        (fun r => decide (r.id = (claimUpdate now vis tok m).id) && r.deleted.isNone)
        (fun r => { r with deleted := some now })
        (updateFirst (fun r => decide (r = m)) (fun _ => claimUpdate now vis tok m) l)) <
      nonDeleted l := by
    intro l
    induction l with
    | nil => intro h; simp at h
    | cons r rs ih =>
      intro h
      by_cases hr : r = m
      · subst hr
        have hd' : (claimUpdate now vis tok r).deleted = none := hdm
        simp only [updateFirst]
        rw [if_pos (by simp [hd'])]
        simp [nonDeleted, List.countP_cons, hdm]
      · have hm' : m ∈ rs := by
          rcases List.mem_cons.mp h with rfl | h'
          · exact absurd rfl hr
          · exact h'
        simp only [updateFirst]
        rw [if_neg (by simp [hr])]
        simp only [updateFirst]
        by_cases hpr : (decide (r.id = (claimUpdate now vis tok m).id) &&
            r.deleted.isNone) = true
        · rw [if_pos hpr]
          have hrnd : r.deleted.isNone = true := ((Bool.and_eq_true ..).mp hpr).2
          have hp' := hpres rs
          simp only [nonDeleted, List.countP_cons] at hp' ⊢
          simp only [hp', hrnd]
          simp
        · rw [if_neg hpr]
          have hih := ih hm'
          simp only [nonDeleted, List.countP_cons] at hih ⊢
          omega
  exact hless main hm

/-- The operation `ping(ack, {visibility})`: find the record with the given token, still
invisible (`visible > now`) and not deleted, and advance its `visible`;
`none` models the thrown `unknown ack` error. -/
def ping (now tok vis : Nat) (recs : List (Record α)) :
    Option (Nat × List (Record α)) :=
  match recs.find? (ackMatch now tok) with
  | none => none
  | some r =>
    some (r.id,
      updateFirst (ackMatch now tok) (fun d => { d with visible := plusSecs now vis }) recs)

/-- The operation `ack(ack)`: same predicate as `ping`, but sets `deleted = now`;
`none` models the thrown `unknown ack` error. -/
def ack (now tok : Nat) (recs : List (Record α)) :
    Option (Nat × List (Record α)) :=
  match recs.find? (ackMatch now tok) with
  | none => none
  | some r =>
    some (r.id,
      updateFirst (ackMatch now tok) (fun d => { d with deleted := some now }) recs)

/-- Repeatedly call `get`, collecting the returned jobs until it returns
empty (used to state the FIFO property). -/
def getSeq (cfg : Config) (now vis : Nat) :
    Nat → Nat → List (Record α) → List (Record α) → List (GetRes α)
  | 0, _, _, _ => []
  | n + 1, tok, main, dlq =>
    match get cfg now vis tok main dlq with
    | (none, _, _, _) => []
    | (some r, main', dlq', tok') => r :: getSeq cfg now vis n tok' main' dlq'

end Queue

section Lemmas

variable {α : Type} [DecidableEq α]

theorem claimableB_iff {now : Nat} {r : Record α} :
    claimableB now r = true ↔ r.deleted = none ∧ r.visible ≤ now := by
  simp [claimableB, Option.isNone_iff_eq_none]

theorem findClaim_mem {now : Nat} :
    ∀ {l : List (Record α)} {m : Record α}, findClaim now l = some m → m ∈ l := by
  intro l
  induction l with
  | nil => intro m h; simp [findClaim] at h
  | cons r rs ih =>
    intro m h
    simp only [findClaim] at h
    split at h
    · split at h
      · exact (Option.some_inj.mp h) ▸ List.mem_cons_self r rs
      · exact absurd h (by simp)
    · split at h
      · exact (Option.some_inj.mp h) ▸ List.mem_cons_self r rs
      · exact List.mem_cons_of_mem r (ih (by simp_all))

theorem findClaim_claimable {now : Nat} :
    ∀ {l : List (Record α)} {m : Record α},
      findClaim now l = some m → claimableB now m = true := by
  intro l
  induction l with
  | nil => intro m h; simp [findClaim] at h
  | cons r rs ih =>
    intro m h
    simp only [findClaim] at h
    split at h
    · split at h
      · cases h; assumption
      · exact absurd h (by simp)
    · rename_i m0 hrc
      split at h
      · rename_i hc
        cases h
        exact (Bool.and_eq_true ..).mp hc |>.1
      · cases h; exact ih hrc

theorem findClaim_none {now : Nat} :
    ∀ {l : List (Record α)}, findClaim now l = none →
      ∀ r ∈ l, claimableB now r = false := by
  intro l
  induction l with
  | nil => intro h r hr; simp at hr
  | cons r rs ih =>
    intro h x hx
    simp only [findClaim] at h
    split at h
    · rename_i hrc
      split at h
      · exact absurd h (by simp)
      · rcases List.mem_cons.mp hx with rfl | hx
        · simpa using ‹¬claimableB now x = true›
        · exact ih hrc x hx
    · split at h <;> exact absurd h (by simp)

theorem findClaim_min {now : Nat} :
    ∀ {l : List (Record α)} {m : Record α}, findClaim now l = some m →
      ∀ r ∈ l, claimableB now r = true → m.id ≤ r.id := by
  intro l
  induction l with
  | nil => intro m h; simp [findClaim] at h
  | cons r rs ih =>
    intro m h x hx hcx
    cases hrc : findClaim now rs with
    | none =>
      simp only [findClaim, hrc] at h
      rw [Option.ite_none_right_eq_some, Option.some_inj] at h
      obtain ⟨hcr, rfl⟩ := h
      rcases List.mem_cons.mp hx with rfl | hx
      · exact Nat.le_refl _
      · exact absurd hcx (by simp [findClaim_none hrc x hx])
    | some m0 =>
      simp only [findClaim, hrc] at h
      rcases ite_eq_iff.mp h with ⟨hc, he⟩ | ⟨hc, he⟩
      · rw [Bool.and_eq_true, decide_eq_true_iff] at hc
        cases Option.some_inj.mp he
        rcases List.mem_cons.mp hx with rfl | hx
        · exact Nat.le_refl _
        · exact Nat.le_trans hc.2 (ih hrc x hx hcx)
      · cases Option.some_inj.mp he
        rcases List.mem_cons.mp hx with rfl | hx
        -- the head x is claimable, so the guard can only have failed on the id test
        · have hnle : ¬ x.id ≤ m.id := fun hle => hc (by simp [hcx, hle])
          omega
        · exact ih hrc x hx hcx

theorem find?_eq_some_self {m : Record α} :
    ∀ {l : List (Record α)}, m ∈ l → l.find? (fun r => decide (r = m)) = some m := by
  intro l h
  induction l with
  | nil => simp at h
  | cons r rs ih =>
    by_cases hr : r = m
    · subst hr; rw [List.find?_cons_of_pos _ (by simp)]
    · rw [List.find?_cons_of_neg _ (by simp [hr])]
      rcases List.mem_cons.mp h with rfl | hm
      · exact absurd rfl hr
      · exact ih hm

theorem updateFirst_decomp (f : Record α → Record α) {p : Record α → Bool} :
    ∀ {l : List (Record α)} {r0 : Record α}, l.find? p = some r0 →
      ∃ l₁ l₂, l = l₁ ++ r0 :: l₂ ∧ (∀ x ∈ l₁, p x = false) ∧
        updateFirst p f l = l₁ ++ f r0 :: l₂ := by
  intro l
  induction l with
  | nil => intro r0 h; simp at h
  | cons r rs ih =>
    intro r0 h
    cases hp : p r with
    | true =>
      rw [List.find?_cons_of_pos _ hp] at h
      cases h
      exact ⟨[], rs, rfl, by simp, by simp [updateFirst, hp]⟩
    | false =>
      rw [List.find?_cons_of_neg _ (by simp [hp])] at h
      obtain ⟨l₁, l₂, hl, hl₁, hu⟩ := ih h
      refine ⟨r :: l₁, l₂, by simp [hl], ?_, by simp [updateFirst, hp, hu]⟩
      intro x hx
      rcases List.mem_cons.mp hx with rfl | hx
      · exact hp
      · exact hl₁ x hx

theorem updateFirst_of_find?_none {p : Record α → Bool} {f : Record α → Record α} :
    ∀ {l : List (Record α)}, l.find? p = none → updateFirst p f l = l := by
  intro l h
  induction l with
  | nil => rfl
  | cons r rs ih =>
    rw [List.find?_cons] at h
    cases hp : p r with
    | true => simp [hp] at h
    | false =>
      rw [hp] at h
      simp only [cond_false] at h
      simp [updateFirst, hp, ih h]

theorem nonDeleted_append_cons (l₁ l₂ : List (Record α)) (x : Record α) :
    nonDeleted (l₁ ++ x :: l₂) =
      nonDeleted l₁ + nonDeleted l₂ + (if x.deleted.isNone then 1 else 0) := by
  simp [nonDeleted, List.countP_append, List.countP_cons]
  omega

theorem findClaim_eq_none_of {now : Nat} {l : List (Record α)}
    (h : ∀ r ∈ l, claimableB now r = false) : findClaim now l = none := by
  induction l with
  | nil => rfl
  | cons r rs ih =>
    have hrs : findClaim now rs = none := ih fun x hx => h x (List.mem_cons_of_mem _ hx)
    simp [findClaim, hrs, h r (List.mem_cons_self _ _)]

theorem ackMatch_iff {now tok : Nat} {r : Record α} :
    ackMatch now tok r = true ↔
      r.ack = some tok ∧ now < r.visible ∧ r.deleted = none := by
  simp [ackMatch, Option.isNone_iff_eq_none, and_assoc]

theorem updateFirst_map_id {p : Record α → Bool} {f : Record α → Record α}
    (hf : ∀ r, p r = true → (f r).id = r.id) :
    ∀ l : List (Record α), (updateFirst p f l).map Record.id = l.map Record.id := by
  intro l
  induction l with
  | nil => rfl
  | cons r rs ih =>
    by_cases hp : p r = true
    · simp [updateFirst, hp, hf r hp]
    · simp [updateFirst, hp, ih]

theorem find?_append_cons {p : Record α → Bool} {l₁ : List (Record α)}
    {y : Record α} (h₁ : ∀ x ∈ l₁, p x = false) (hy : p y = true)
    (l₂ : List (Record α)) : (l₁ ++ y :: l₂).find? p = some y := by
  induction l₁ with
  | nil => simpa using List.find?_cons_of_pos l₂ hy
  | cons a l ih =>
    rw [List.cons_append,
      List.find?_cons_of_neg _ (by simp [h₁ a (List.mem_cons_self _ _)])]
    exact ih fun x hx => h₁ x (List.mem_cons_of_mem _ hx)

theorem updateFirst_append_cons {p : Record α → Bool} {f : Record α → Record α}
    {l₁ : List (Record α)} {y : Record α}
    (h₁ : ∀ x ∈ l₁, p x = false) (hy : p y = true) (l₂ : List (Record α)) :
    updateFirst p f (l₁ ++ y :: l₂) = l₁ ++ f y :: l₂ := by
  induction l₁ with
  | nil => simp [updateFirst, hy]
  | cons a l ih =>
    rw [List.cons_append]
    simp only [updateFirst]
    rw [if_neg (by simp [h₁ a (List.mem_cons_self _ _)]),
      ih fun x hx => h₁ x (List.mem_cons_of_mem _ hx), List.cons_append]

theorem get_of_findClaim_none {cfg : Config} {now vis tok : Nat}
    {main dlq : List (Record α)} (hfc : findClaim now main = none) :
    Queue.get cfg now vis tok main dlq = (none, main, dlq, tok + 1) := by
  rw [Queue.get.eq_def, hfc]

theorem get_of_findClaim_some_live {cfg : Config} {now vis tok : Nat}
    {main dlq : List (Record α)} {m : Record α}
    (hfc : findClaim now main = some m)
    (hlive : cfg.hasDLQ = false ∨ m.tries + 1 ≤ cfg.maxRetries) :
    Queue.get cfg now vis tok main dlq =
      (some ⟨m.id, tok, m.payload, m.tries + 1⟩,
       updateFirst (fun r => decide (r = m)) (fun _ => claimUpdate now vis tok m) main,
       dlq, tok + 1) := by
  rw [Queue.get.eq_def, hfc]
  have hcond : (cfg.hasDLQ && decide (cfg.maxRetries < m.tries + 1)) = false := by
    rcases hlive with h | h
    · simp [h]
    · simp [Nat.not_lt.mpr h]
  simp [hcond]

theorem get_of_findClaim_some_poisoned {cfg : Config} {now vis tok : Nat}
    {main dlq : List (Record α)} {m : Record α}
    (hfc : findClaim now main = some m)
    (hD : cfg.hasDLQ = true) (hp : cfg.maxRetries < m.tries + 1) :
    Queue.get cfg now vis tok main dlq =
      Queue.get cfg now vis (tok + 1)
        (Queue.moveToDLQ cfg now (claimUpdate now vis tok m)
          (updateFirst (fun r => decide (r = m)) (fun _ => claimUpdate now vis tok m) main)
          dlq).1
        (Queue.moveToDLQ cfg now (claimUpdate now vis tok m)
          (updateFirst (fun r => decide (r = m)) (fun _ => claimUpdate now vis tok m) main)
          dlq).2 := by
  rw [Queue.get.eq_def, hfc]
  simp [hD, hp]

/-- The function `get` only ever appends to the DLQ collection. -/
theorem get_dlq_append (cfg : Config) (now vis tok : Nat)
    (main dlq : List (Record α)) :
    ∃ rest, (Queue.get cfg now vis tok main dlq).2.2.1 = dlq ++ rest := by
  induction tok, main, dlq using Queue.get.induct with
  | cfg => exact cfg
  | now => exact now
  | vis => exact vis
  | case1 tok main dlq hfc =>
    exact ⟨[], by simp [get_of_findClaim_none hfc]⟩
  | case2 tok main dlq m hfc hgd md ih =>
    rw [Bool.and_eq_true, decide_eq_true_iff] at hgd
    obtain ⟨rest, hrest⟩ := ih
    rw [get_of_findClaim_some_poisoned hfc hgd.1 hgd.2]
    refine ⟨claimUpdate now vis tok m :: rest, ?_⟩
    unfold_let md at hrest
    rw [hrest]
    simp [Queue.moveToDLQ, hgd.1]
  | case3 tok main dlq m hfc hgd =>
    have hlive : cfg.hasDLQ = false ∨ m.tries + 1 ≤ cfg.maxRetries := by
      rcases Bool.eq_false_or_eq_true cfg.hasDLQ with hD | hD
      · right
        by_contra hlt
        exact hgd (by simp [hD, Nat.lt_of_not_le hlt])
      · exact Or.inl hD
    rw [get_of_findClaim_some_live hfc hlive]
    exact ⟨[], by simp⟩

/-- With unique ids and a positive visibility window, the record claimed by a
second `get` at the same instant has a strictly larger id than the first. -/
theorem get_next_claim_id_gt {now vis tok : Nat}
    {main : List (Record α)} {m1 m2 : Record α}
    (hv : 1 ≤ vis) (hnd : (main.map Record.id).Nodup)
    (h1 : findClaim now main = some m1)
    (h2 : findClaim now (updateFirst (fun r => decide (r = m1))
      (fun _ => claimUpdate now vis tok m1) main) = some m2) :
    m1.id < m2.id := by
  obtain ⟨l₁, l₂, hl, hl₁, hu⟩ :=
    updateFirst_decomp (fun _ => claimUpdate now vis tok m1)
      (find?_eq_some_self (findClaim_mem h1))
  rw [hu] at h2
  have h2cl := findClaim_claimable h2
  have hm2ne : m2 ≠ claimUpdate now vis tok m1 := by
    intro he
    rw [he, claimableB_iff] at h2cl
    have := h2cl.2
    simp only [claimUpdate, plusSecs] at this
    omega
  have hm2mid : m2 ∈ l₁ ++ l₂ := by
    rcases List.mem_append.mp (findClaim_mem h2) with hx | hx
    · exact List.mem_append.mpr (Or.inl hx)
    · rcases List.mem_cons.mp hx with he | hx2
      · exact absurd he hm2ne
      · exact List.mem_append.mpr (Or.inr hx2)
  have hm2main : m2 ∈ main := by
    rw [hl]
    rcases List.mem_append.mp hm2mid with hx | hx
    · exact List.mem_append.mpr (Or.inl hx)
    · exact List.mem_append.mpr (Or.inr (List.mem_cons_of_mem _ hx))
  have hle : m1.id ≤ m2.id := findClaim_min h1 m2 hm2main h2cl
  rcases Nat.lt_or_ge m1.id m2.id with hlt | hge
  · exact hlt
  · exfalso
    have heq : m2.id = m1.id := Nat.le_antisymm hge hle
    rw [hl, List.map_append, List.map_cons] at hnd
    have hnotin : m1.id ∉ l₁.map Record.id ++ l₂.map Record.id :=
      (List.nodup_cons.mp (List.nodup_middle.mp hnd)).1
    apply hnotin
    rw [← List.map_append]
    exact heq ▸ List.mem_map_of_mem Record.id hm2mid

/-- With no DLQ, unique ids and a positive visibility window, the ids
returned by successive `get` calls at one instant are strictly increasing. -/
theorem getSeq_chain (cfg : Config) (now vis : Nat) (hD : cfg.hasDLQ = false)
    (hv : 1 ≤ vis) :
    ∀ (n tok : Nat) (main dlq : List (Record α)),
      (main.map Record.id).Nodup →
      List.Chain' (fun a b : GetRes α => a.id < b.id)
        (Queue.getSeq cfg now vis n tok main dlq) := by
  intro n
  induction n with
  | zero => intro tok main dlq hnd; simp [Queue.getSeq]
  | succ k ih =>
    intro tok main dlq hnd
    cases hfc : findClaim now main with
    | none => simp [Queue.getSeq, get_of_findClaim_none hfc]
    | some m =>
      have hnd' : ((updateFirst (fun r => decide (r = m))
          (fun _ => claimUpdate now vis tok m) main).map Record.id).Nodup := by
        rw [updateFirst_map_id (fun r hr => by cases of_decide_eq_true hr; rfl) main]
        exact hnd
      rw [Queue.getSeq, get_of_findClaim_some_live hfc (Or.inl hD)]
      rw [List.chain'_cons']
      refine ⟨?_, ih (tok + 1) _ dlq hnd'⟩
      intro b hb
      cases k with
      | zero => simp [Queue.getSeq] at hb
      | succ j =>
        cases hfc2 : findClaim now (updateFirst (fun r => decide (r = m))
            (fun _ => claimUpdate now vis tok m) main) with
        | none =>
          rw [Queue.getSeq, get_of_findClaim_none hfc2] at hb
          simp at hb
        | some m2 =>
          rw [Queue.getSeq, get_of_findClaim_some_live hfc2 (Or.inl hD)] at hb
          simp only [List.head?_cons, Option.mem_def, Option.some_inj] at hb
          rw [← hb]
          exact get_next_claim_id_gt hv hnd hfc hfc2

end Lemmas

section Claims

variable {α : Type} [DecidableEq α]

/-- C9: `get()` on a queue with no claimable record (every record has
`deleted` set or `visible > now`) returns an empty result rather than
raising an error (and leaves the state unchanged). -/
theorem get_on_queue_without_claimable_returns_empty (cfg : Config)
    (now vis tok : Nat) (main dlq : List (Record α))
    (h : ∀ r ∈ main, r.deleted ≠ none ∨ now < r.visible) :
    Queue.get cfg now vis tok main dlq = (none, main, dlq, tok + 1) := by
  refine get_of_findClaim_none (findClaim_eq_none_of ?_)
  intro r hr
  cases hrd : r.deleted with
  | none =>
    rcases h r hr with hd | hv
    · exact absurd hrd hd
    · simp [claimableB, hrd]
      omega
  | some d => simp [claimableB, hrd]

/-- Witness for C9 at a concrete input: one record that is not yet visible. -/
theorem get_on_queue_without_claimable_returns_empty_witness :
    Queue.get ({ } : Config) 0 30 0 [(⟨0, 7, 5000, 0, none, none⟩ : Record Nat)] [] =
      (none, [⟨0, 7, 5000, 0, none, none⟩], [], 1) :=
  get_on_queue_without_claimable_returns_empty _ 0 30 0 _ _ (by decide)

/-- C8: `add` inserts one record per payload with `tries = 0` and
`visible = now + delay` (`now` itself when the delay is zero, the delay
defaulting to the queue's configured default), and its return value mirrors
the input shape: a single id for a single payload, and for a batch the fresh
ids in the same order as the input payloads. -/
theorem add_inserts_records_and_mirrors_shape (cfg : Config) (now : Nat)
    (dOpt : Option Nat) (nid : Nat) (recs : List (Record α)) (p : α)
    (ps : List α) :
    Queue.add cfg now dOpt (.single p) nid recs =
      (.one nid,
       recs ++ [⟨nid, p, now + (dOpt.getD cfg.delay) * 1000, 0, none, none⟩],
       nid + 1) ∧
    Queue.add cfg now dOpt (.batch ps) nid recs =
      (.many ((List.range ps.length).map fun i => nid + i),
       recs ++ ps.enum.map fun q =>
         (⟨nid + q.1, q.2, now + (dOpt.getD cfg.delay) * 1000, 0, none, none⟩ : Record α),
       nid + ps.length) := by
  constructor
  · by_cases d0 : dOpt.getD cfg.delay = 0 <;>
      simp [Queue.add, Queue.addCore, plusSecs, d0]
  · have hvis : (if (dOpt.getD cfg.delay) ≠ 0 then plusSecs now (dOpt.getD cfg.delay)
        else now) = now + (dOpt.getD cfg.delay) * 1000 := by
      by_cases d0 : dOpt.getD cfg.delay = 0 <;> simp [d0, plusSecs]
    have hids : (List.range ps.length).map (fun i => nid + i) =
        ps.enum.map fun q => nid + q.1 := by
      rw [← List.enum_map_fst ps, List.map_map]; rfl
    simp only [Queue.add, Queue.addCore, hvis, hids, List.map_map]
    rfl

/-- C4: `ping(ack, {visibility})` succeeds iff some record carries the given
`ack` token with `visible > now` and `deleted` absent; on success it returns
that record's id and advances exactly that record's `visible` to
`now + visibility`; on failure (`none`, the thrown error) nothing is touched. -/
theorem ping_spec (now tok vis : Nat) (recs : List (Record α)) :
    ((Queue.ping now tok vis recs).isSome ↔
      ∃ r ∈ recs, r.ack = some tok ∧ now < r.visible ∧ r.deleted = none) ∧
    ∀ i s', Queue.ping now tok vis recs = some (i, s') →
      ∃ l₁ r l₂, recs = l₁ ++ r :: l₂ ∧
        (∀ x ∈ l₁, ackMatch now tok x = false) ∧
        (r.ack = some tok ∧ now < r.visible ∧ r.deleted = none) ∧
        i = r.id ∧ s' = l₁ ++ { r with visible := now + vis * 1000 } :: l₂ := by
  constructor
  · cases hf : recs.find? (ackMatch now tok) with
    | none =>
      have hno := List.find?_eq_none.mp hf
      simp only [Queue.ping, hf]
      simp only [Option.isSome_none, Bool.false_eq_true, false_iff]
      rintro ⟨r, hr, h1, h2, h3⟩
      exact hno r hr (ackMatch_iff.mpr ⟨h1, h2, h3⟩)
    | some r =>
      simp only [Queue.ping, hf, Option.isSome_some, true_iff]
      exact ⟨r, List.mem_of_find?_eq_some hf, ackMatch_iff.mp (List.find?_some hf)⟩
  · intro i s' h
    cases hf : recs.find? (ackMatch now tok) with
    | none => simp [Queue.ping, hf] at h
    | some r =>
      simp only [Queue.ping, hf, Option.some_inj, Prod.mk.injEq] at h
      obtain ⟨hi, hs⟩ := h
      obtain ⟨l₁, l₂, hl, hl₁, hu⟩ :=
        updateFirst_decomp (fun d => { d with visible := plusSecs now vis }) hf
      exact ⟨l₁, r, l₂, hl, hl₁, ackMatch_iff.mp (List.find?_some hf), hi.symm,
        hs.symm.trans hu⟩

/-- Witness for C4 at a concrete input: a queue with one outstanding claim,
pinged with its token. -/
theorem ping_spec_witness :
    ((Queue.ping 1 3 60 [(⟨0, 7, 5000, 1, some 3, none⟩ : Record Nat)]).isSome ↔
      ∃ r ∈ [(⟨0, 7, 5000, 1, some 3, none⟩ : Record Nat)],
        r.ack = some 3 ∧ 1 < r.visible ∧ r.deleted = none) ∧
    ∀ i s', Queue.ping 1 3 60 [(⟨0, 7, 5000, 1, some 3, none⟩ : Record Nat)] =
        some (i, s') →
      ∃ l₁ r l₂, [(⟨0, 7, 5000, 1, some 3, none⟩ : Record Nat)] = l₁ ++ r :: l₂ ∧
        (∀ x ∈ l₁, ackMatch 1 3 x = false) ∧
        (r.ack = some 3 ∧ 1 < r.visible ∧ r.deleted = none) ∧
        i = r.id ∧ s' = l₁ ++ { r with visible := 1 + 60 * 1000 } :: l₂ :=
  ping_spec 1 3 60 [(⟨0, 7, 5000, 1, some 3, none⟩ : Record Nat)]

/-- C1 counterexample: with `visibility = 1s`, `maxRetries = 0` and a DLQ,
after `add("job1")` the first `get()` does NOT return the job with
`tries = 1`: the post-increment `tries = 1` already exceeds `maxRetries = 0`,
so the claimed record is immediately moved to the DLQ and `get()` returns
empty. -/
theorem first_get_with_zero_retries_counterexample :
    Queue.get ({ visibility := 1, delay := 0, maxRetries := 0, hasDLQ := true } : Config)
        0 1 0 [(⟨0, "job1", 0, 0, none, none⟩ : Record String)] [] =
      (none, [⟨0, "job1", 1000, 1, some 0, some 0⟩],
       [⟨0, "job1", 1000, 1, some 0, none⟩], 2) := by
  simp [Queue.get, findClaim, claimableB, claimUpdate, updateFirst, Queue.moveToDLQ,
    plusSecs]

/-- C1 (amended): on a successful claim the record is dead-lettered exactly
when a DLQ is configured and the post-increment `tries` exceeds
`maxRetries`: otherwise `get` returns the claimed record and the DLQ is
untouched, and in the poisoned case the claimed copy is inserted into the
DLQ (so with `maxRetries = 0` and a DLQ the very first `get()` dead-letters
the job instead of returning it). -/
theorem get_dead_letters_iff_tries_exceed_maxRetries (cfg : Config)
    (now vis tok : Nat) (main dlq : List (Record α)) (m : Record α)
    (hfc : findClaim now main = some m) :
    (cfg.hasDLQ = false ∨ m.tries + 1 ≤ cfg.maxRetries →
      Queue.get cfg now vis tok main dlq =
        (some ⟨m.id, tok, m.payload, m.tries + 1⟩,
         updateFirst (fun r => decide (r = m)) (fun _ => claimUpdate now vis tok m) main,
         dlq, tok + 1)) ∧
    (cfg.hasDLQ = true → cfg.maxRetries < m.tries + 1 →
      ∃ rest, (Queue.get cfg now vis tok main dlq).2.2.1 =
        dlq ++ claimUpdate now vis tok m :: rest) := by
  constructor
  · exact fun hlive => get_of_findClaim_some_live hfc hlive
  · intro hD hp
    rw [get_of_findClaim_some_poisoned hfc hD hp]
    obtain ⟨rest, hrest⟩ := get_dlq_append cfg now vis (tok + 1)
      (Queue.moveToDLQ cfg now (claimUpdate now vis tok m)
        (updateFirst (fun r => decide (r = m)) (fun _ => claimUpdate now vis tok m) main)
        dlq).1
      (Queue.moveToDLQ cfg now (claimUpdate now vis tok m)
        (updateFirst (fun r => decide (r = m)) (fun _ => claimUpdate now vis tok m) main)
        dlq).2
    rw [hrest]
    refine ⟨rest, ?_⟩
    simp [Queue.moveToDLQ, hD]

/-- Witness for the amended C1 at a concrete input: a live (non-poisoned)
claim returns the record and leaves the DLQ untouched. -/
theorem get_dead_letters_iff_tries_exceed_maxRetries_witness :
    (({ } : Config).hasDLQ = false ∨ 0 + 1 ≤ ({ } : Config).maxRetries →
      Queue.get ({ } : Config) 0 30 0 [(⟨0, 7, 0, 0, none, none⟩ : Record Nat)] [] =
        (some ⟨0, 0, 7, 0 + 1⟩,
         updateFirst (fun r => decide (r = (⟨0, 7, 0, 0, none, none⟩ : Record Nat)))
           (fun _ => claimUpdate 0 30 0 (⟨0, 7, 0, 0, none, none⟩ : Record Nat))
           [(⟨0, 7, 0, 0, none, none⟩ : Record Nat)],
         [], 0 + 1)) ∧
    (({ } : Config).hasDLQ = true → ({ } : Config).maxRetries < 0 + 1 →
      ∃ rest, (Queue.get ({ } : Config) 0 30 0
          [(⟨0, 7, 0, 0, none, none⟩ : Record Nat)] []).2.2.1 =
        [] ++ claimUpdate 0 30 0 (⟨0, 7, 0, 0, none, none⟩ : Record Nat) :: rest) :=
  get_dead_letters_iff_tries_exceed_maxRetries ({ } : Config) 0 30 0
    [(⟨0, 7, 0, 0, none, none⟩ : Record Nat)] []
    (⟨0, 7, 0, 0, none, none⟩ : Record Nat) (by decide)

/-- C5: for every payload, `add(payload)` on an empty queue (with no DLQ
configured, or `maxRetries ≥ 1`) followed by `get()` once the publish delay
has elapsed returns the inserted record with its original payload and
`tries = 1`. -/
theorem add_then_get_returns_payload_with_tries_one (cfg : Config) (p : α)
    (now₁ now₂ d vis tok nid : Nat) (dlq : List (Record α))
    (hd : cfg.hasDLQ = false ∨ 1 ≤ cfg.maxRetries)
    (ht : now₁ + d * 1000 ≤ now₂) :
    (Queue.get cfg now₂ vis tok
        (Queue.add cfg now₁ (some d) (.single p) nid []).2.1 dlq).1 =
      some ⟨nid, tok, p, 1⟩ := by
  have hadd : (Queue.add cfg now₁ (some d) (.single p) nid []).2.1 =
      [⟨nid, p, now₁ + d * 1000, 0, none, none⟩] := by
    by_cases d0 : d = 0 <;> simp [Queue.add, Queue.addCore, plusSecs, d0]
  have hfc : findClaim now₂ [(⟨nid, p, now₁ + d * 1000, 0, none, none⟩ : Record α)] =
      some ⟨nid, p, now₁ + d * 1000, 0, none, none⟩ := by
    simp [findClaim, claimableB, ht]
  rw [hadd, get_of_findClaim_some_live hfc hd]

/-- Witness for C5 at a concrete input. -/
theorem add_then_get_returns_payload_with_tries_one_witness :
    (Queue.get ({ } : Config) 2000 30 0
        (Queue.add ({ } : Config) 0 (some 2) (.single 9) 4 []).2.1 []).1 =
      some ⟨4, 0, 9, 1⟩ :=
  add_then_get_returns_payload_with_tries_one ({ } : Config) (9 : Nat) 0 2000 2 30 0 4 []
    (Or.inl rfl) (by decide)

/-- C3: once `ack(token)` succeeds (tokens being unique), any later `ack` or
`ping` with the same token fails with the unknown-ack error, and the
acknowledged record (now carrying `deleted`) no longer satisfies the
`size()`/`inFlight()` predicates while it still counts for `total()` and
newly counts for `done()`. -/
theorem ack_finality (now now' tok vis : Nat) (recs : List (Record α))
    (huniq : recs.countP (fun r => r.ack == some tok) ≤ 1)
    (i : Nat) (s' : List (Record α))
    (h : Queue.ack now tok recs = some (i, s')) :
    Queue.ack now' tok s' = none ∧
    Queue.ping now' tok vis s' = none ∧
    Queue.total s' = Queue.total recs ∧
    Queue.done s' = Queue.done recs + 1 ∧
    ∃ l₁ r l₂, recs = l₁ ++ r :: l₂ ∧
      s' = l₁ ++ { r with deleted := some now } :: l₂ ∧
      ∀ t, claimableB t ({ r with deleted := some now } : Record α) = false ∧
           inFlightB t ({ r with deleted := some now } : Record α) = false := by
  cases hf : recs.find? (ackMatch now tok) with
  | none => simp [Queue.ack, hf] at h
  | some r =>
    simp only [Queue.ack, hf, Option.some_inj, Prod.mk.injEq] at h
    obtain ⟨hi, hs⟩ := h
    obtain ⟨l₁, l₂, hl, hl₁, hu⟩ :=
      updateFirst_decomp (fun d => { d with deleted := some now }) hf
    obtain ⟨hrack, hrvis, hrdel⟩ := ackMatch_iff.mp (List.find?_some hf)
    have hs' : s' = l₁ ++ { r with deleted := some now } :: l₂ := hs.symm.trans hu
    have hcnt : l₁.countP (fun x => x.ack == some tok) = 0 ∧
        l₂.countP (fun x => x.ack == some tok) = 0 := by
      rw [hl] at huniq
      simp [List.countP_append, List.countP_cons, hrack] at huniq
      omega
    have hno1 : ∀ x ∈ l₁, (x.ack == some tok) = false := by
      intro x hx
      simpa using List.countP_eq_zero.mp hcnt.1 x hx
    have hno2 : ∀ x ∈ l₂, (x.ack == some tok) = false := by
      intro x hx
      simpa using List.countP_eq_zero.mp hcnt.2 x hx
    have hfind : ∀ x ∈ s', ackMatch now' tok x = false := by
      intro x hx
      rw [hs'] at hx
      rcases List.mem_append.mp hx with hx1 | hx2
      · simp [ackMatch, hno1 x hx1]
      · rcases List.mem_cons.mp hx2 with rfl | hx3
        · simp [ackMatch]
        · simp [ackMatch, hno2 x hx3]
    have hfn : s'.find? (ackMatch now' tok) = none :=
      List.find?_eq_none.mpr fun x hx => by simp [hfind x hx]
    refine ⟨by simp [Queue.ack, hfn], by simp [Queue.ping, hfn], ?_, ?_,
      l₁, r, l₂, hl, hs', ?_⟩
    · rw [hs', hl]; simp [Queue.total]
    · rw [hs', hl]
      simp [Queue.done, List.countP_append, List.countP_cons, hrdel]
      omega
    · intro t
      constructor <;> simp [claimableB, inFlightB]

/-- Witness for C3 at a concrete input: one in-flight record, acknowledged,
then re-acknowledged and pinged with the stale token. -/
theorem ack_finality_witness :
    Queue.ack 2 3 [(⟨0, 7, 5000, 1, some 3, some 1⟩ : Record Nat)] = none ∧
    Queue.ping 2 3 60 [(⟨0, 7, 5000, 1, some 3, some 1⟩ : Record Nat)] = none ∧
    Queue.total [(⟨0, 7, 5000, 1, some 3, some 1⟩ : Record Nat)] =
      Queue.total [(⟨0, 7, 5000, 1, some 3, none⟩ : Record Nat)] ∧
    Queue.done [(⟨0, 7, 5000, 1, some 3, some 1⟩ : Record Nat)] =
      Queue.done [(⟨0, 7, 5000, 1, some 3, none⟩ : Record Nat)] + 1 ∧
    ∃ l₁ r l₂, [(⟨0, 7, 5000, 1, some 3, none⟩ : Record Nat)] = l₁ ++ r :: l₂ ∧
      [(⟨0, 7, 5000, 1, some 3, some 1⟩ : Record Nat)] =
        l₁ ++ { r with deleted := some 1 } :: l₂ ∧
      ∀ t, claimableB t ({ r with deleted := some 1 } : Record Nat) = false ∧
           inFlightB t ({ r with deleted := some 1 } : Record Nat) = false :=
  ack_finality 1 2 3 60 [(⟨0, 7, 5000, 1, some 3, none⟩ : Record Nat)] (by decide)
    0 [(⟨0, 7, 5000, 1, some 3, some 1⟩ : Record Nat)] (by decide)

/-- C7 counterexample: after a successful `ack` the record still carries its
`ack` token while `deleted` is set — the token is neither absent nor
cleared once the record is acknowledged. -/
theorem ack_token_not_cleared_counterexample :
    Queue.ack 1 5 [(⟨0, 7, 30000, 1, some 5, none⟩ : Record Nat)] =
      some (0, [⟨0, 7, 30000, 1, some 5, some 1⟩]) ∧
    (⟨0, 7, 30000, 1, some 5, some 1⟩ : Record Nat).ack = some 5 ∧
    (⟨0, 7, 30000, 1, some 5, some 1⟩ : Record Nat).deleted = some 1 := by
  refine ⟨?_, rfl, rfl⟩
  rfl

/-- C7 (amended): `ack` is absent on every record freshly inserted by `add`,
and is set by a claim; once set it persists — a successful `ack()` only sets
`deleted` and leaves the token field in place. -/
theorem ack_absent_before_claim_and_persists_after_ack (cfg : Config)
    (now₀ : Nat) (dOpt : Option Nat) (ps : List α) (nid now tok : Nat)
    (recs : List (Record α)) :
    (∀ r ∈ (Queue.addCore cfg now₀ dOpt ps nid recs).2.1, r ∈ recs ∨ r.ack = none) ∧
    (∀ i s', Queue.ack now tok recs = some (i, s') →
      ∃ l₁ r l₂, recs = l₁ ++ r :: l₂ ∧ r.ack = some tok ∧
        s' = l₁ ++ { r with deleted := some now } :: l₂ ∧
        ({ r with deleted := some now } : Record α).ack = some tok) := by
  constructor
  · intro r hr
    simp only [Queue.addCore] at hr
    rcases List.mem_append.mp hr with h1 | h2
    · exact Or.inl h1
    · obtain ⟨q, hq, rfl⟩ := List.mem_map.mp h2
      exact Or.inr rfl
  · intro i s' h
    cases hf : recs.find? (ackMatch now tok) with
    | none => simp [Queue.ack, hf] at h
    | some r =>
      simp only [Queue.ack, hf, Option.some_inj, Prod.mk.injEq] at h
      obtain ⟨hi, hs⟩ := h
      obtain ⟨l₁, l₂, hl, hl₁, hu⟩ :=
        updateFirst_decomp (fun d => { d with deleted := some now }) hf
      obtain ⟨hrack, hrvis, hrdel⟩ := ackMatch_iff.mp (List.find?_some hf)
      exact ⟨l₁, r, l₂, hl, hrack, hs.symm.trans hu, hrack⟩

/-- Witness for the amended C7 at a concrete input. -/
theorem ack_absent_before_claim_and_persists_after_ack_witness :
    (∀ r ∈ (Queue.addCore ({ } : Config) 0 none [5, 6] 10
        [(⟨0, 7, 5000, 1, some 3, none⟩ : Record Nat)]).2.1,
      r ∈ [(⟨0, 7, 5000, 1, some 3, none⟩ : Record Nat)] ∨ r.ack = none) ∧
    (∀ i s', Queue.ack 1 3 [(⟨0, 7, 5000, 1, some 3, none⟩ : Record Nat)] =
        some (i, s') →
      ∃ l₁ r l₂, [(⟨0, 7, 5000, 1, some 3, none⟩ : Record Nat)] = l₁ ++ r :: l₂ ∧
        r.ack = some 3 ∧ s' = l₁ ++ { r with deleted := some 1 } :: l₂ ∧
        ({ r with deleted := some 1 } : Record Nat).ack = some 3) :=
  ack_absent_before_claim_and_persists_after_ack ({ } : Config) 0 none [5, 6] 10 1 3
    [(⟨0, 7, 5000, 1, some 3, none⟩ : Record Nat)]

/-- C10: `_moveToDLQ` inserts the claimed record verbatim into the DLQ
collection: same id, the freshly issued ack token, the incremented tries and
`visible` already advanced to claim-time + visibility; the moved record is
therefore not claimable from the DLQ before that window elapses, and once it
has elapsed a `get()` on the DLQ returns it with `tries` one greater than its
value at move time. -/
theorem moveToDLQ_inserts_claimed_record_verbatim (cfg cfgD : Config)
    (now vis tok t visD tokD : Nat) (m : Record α) (src dlq : List (Record α))
    (hD : cfg.hasDLQ = true) (hdel : m.deleted = none)
    (hDD : cfgD.hasDLQ = false) (ht : now + vis * 1000 ≤ t) :
    (Queue.moveToDLQ cfg now (claimUpdate now vis tok m) src dlq).2 =
      dlq ++ [claimUpdate now vis tok m] ∧
    (claimUpdate now vis tok m).id = m.id ∧
    (claimUpdate now vis tok m).ack = some tok ∧
    (claimUpdate now vis tok m).tries = m.tries + 1 ∧
    (claimUpdate now vis tok m).visible = now + vis * 1000 ∧
    (claimUpdate now vis tok m).deleted = none ∧
    (∀ u, u < now + vis * 1000 → claimableB u (claimUpdate now vis tok m) = false) ∧
    (Queue.get cfgD t visD tokD [claimUpdate now vis tok m] []).1 =
      some ⟨m.id, tokD, m.payload, m.tries + 2⟩ := by
  refine ⟨by simp [Queue.moveToDLQ, hD], rfl, rfl, rfl, rfl, hdel, ?_, ?_⟩
  · intro u hu
    simp [claimableB, claimUpdate, plusSecs, hdel]
    omega
  · have hfc : findClaim t [claimUpdate now vis tok m] =
        some (claimUpdate now vis tok m) := by
      simp [findClaim, claimableB, claimUpdate, plusSecs, hdel]
      omega
    rw [get_of_findClaim_some_live hfc (Or.inl hDD)]
    rfl

/-- Witness for C10 at a concrete input. -/
theorem moveToDLQ_inserts_claimed_record_verbatim_witness :
    (Queue.moveToDLQ ({ visibility := 1, delay := 0, maxRetries := 0, hasDLQ := true } : Config)
        0 (claimUpdate 0 1 0 (⟨0, 7, 0, 0, none, none⟩ : Record Nat))
        [(⟨0, 7, 0, 0, none, none⟩ : Record Nat)] []).2 =
      [] ++ [claimUpdate 0 1 0 (⟨0, 7, 0, 0, none, none⟩ : Record Nat)] ∧
    (claimUpdate 0 1 0 (⟨0, 7, 0, 0, none, none⟩ : Record Nat)).id = 0 ∧
    (claimUpdate 0 1 0 (⟨0, 7, 0, 0, none, none⟩ : Record Nat)).ack = some 0 ∧
    (claimUpdate 0 1 0 (⟨0, 7, 0, 0, none, none⟩ : Record Nat)).tries = 0 + 1 ∧
    (claimUpdate 0 1 0 (⟨0, 7, 0, 0, none, none⟩ : Record Nat)).visible = 0 + 1 * 1000 ∧
    (claimUpdate 0 1 0 (⟨0, 7, 0, 0, none, none⟩ : Record Nat)).deleted = none ∧
    (∀ u, u < 0 + 1 * 1000 →
      claimableB u (claimUpdate 0 1 0 (⟨0, 7, 0, 0, none, none⟩ : Record Nat)) = false) ∧
    (Queue.get ({ } : Config) 1000 30 5
        [claimUpdate 0 1 0 (⟨0, 7, 0, 0, none, none⟩ : Record Nat)] []).1 =
      some ⟨0, 5, 7, 0 + 2⟩ :=
  moveToDLQ_inserts_claimed_record_verbatim
    ({ visibility := 1, delay := 0, maxRetries := 0, hasDLQ := true } : Config)
    ({ } : Config) 0 1 0 1000 30 5 (⟨0, 7, 0, 0, none, none⟩ : Record Nat)
    [(⟨0, 7, 0, 0, none, none⟩ : Record Nat)] [] rfl rfl rfl (by decide)

/-- C2: with unique ids (as MongoDB guarantees for `_id`), no DLQ and a
positive visibility window, sequential `get()` calls return records in
strictly ascending insertion-id order, and every successful `get()` claims
the record with the smallest id among those with `deleted` absent and
`visible ≤ now`. -/
theorem get_fifo_in_id_order (cfg : Config) (now vis n tok : Nat)
    (main dlq : List (Record α)) (hD : cfg.hasDLQ = false) (hv : 1 ≤ vis)
    (hnd : (main.map Record.id).Nodup) :
    List.Chain' (fun a b : GetRes α => a.id < b.id)
      (Queue.getSeq cfg now vis n tok main dlq) ∧
    ∀ res, (Queue.get cfg now vis tok main dlq).1 = some res →
      ∀ r ∈ main, claimableB now r = true → res.id ≤ r.id := by
  constructor
  · exact getSeq_chain cfg now vis hD hv n tok main dlq hnd
  · intro res hres r hr hcr
    cases hfc : findClaim now main with
    | none =>
      rw [get_of_findClaim_none hfc] at hres
      simp at hres
    | some m =>
      rw [get_of_findClaim_some_live hfc (Or.inl hD)] at hres
      simp only [Option.some_inj] at hres
      rw [← hres]
      exact findClaim_min hfc r hr hcr

/-- Witness for C2 at a concrete input: three records inserted with identical
`visible` timestamps. -/
theorem get_fifo_in_id_order_witness :
    List.Chain' (fun a b : GetRes Nat => a.id < b.id)
      (Queue.getSeq ({ } : Config) 0 30 3 0
        [(⟨0, 7, 0, 0, none, none⟩ : Record Nat), ⟨1, 8, 0, 0, none, none⟩,
         ⟨2, 9, 0, 0, none, none⟩] []) ∧
    ∀ res, (Queue.get ({ } : Config) 0 30 0
        [(⟨0, 7, 0, 0, none, none⟩ : Record Nat), ⟨1, 8, 0, 0, none, none⟩,
         ⟨2, 9, 0, 0, none, none⟩] []).1 = some res →
      ∀ r ∈ [(⟨0, 7, 0, 0, none, none⟩ : Record Nat), ⟨1, 8, 0, 0, none, none⟩,
         ⟨2, 9, 0, 0, none, none⟩], claimableB 0 r = true → res.id ≤ r.id :=
  get_fifo_in_id_order ({ } : Config) 0 30 3 0
    [(⟨0, 7, 0, 0, none, none⟩ : Record Nat), ⟨1, 8, 0, 0, none, none⟩,
     ⟨2, 9, 0, 0, none, none⟩] [] rfl (by decide) (by decide)

/-- C6: the recursive skip-on-poison in `get` is well founded (`get` is a
total function of the finite record list — its recursion measure, the number
of non-deleted records, strictly decreases at every dead-letter move) and,
with unique ids, performs at most one dead-letter move per initially
claimable record: the DLQ growth plus the remaining claimable count never
exceeds the initial claimable count. -/
theorem get_poison_recursion_bounded (cfg : Config) (now vis tok : Nat)
    (main dlq : List (Record α)) (hnd : (main.map Record.id).Nodup) :
    ((Queue.get cfg now vis tok main dlq).2.2.1).length +
      Queue.size now ((Queue.get cfg now vis tok main dlq).2.1) ≤
    dlq.length + Queue.size now main := by
  revert hnd
  induction tok, main, dlq using Queue.get.induct with
  | cfg => exact cfg
  | now => exact now
  | vis => exact vis
  | case1 tok main dlq hfc =>
    intro hnd
    rw [get_of_findClaim_none hfc]
  | case2 tok main dlq m hfc hgd md ih =>
    intro hnd
    rw [Bool.and_eq_true, decide_eq_true_iff] at hgd
    rw [get_of_findClaim_some_poisoned hfc hgd.1 hgd.2]
    obtain ⟨l₁, l₂, hl, hl₁, hu⟩ :=
      updateFirst_decomp (fun _ => claimUpdate now vis tok m)
        (find?_eq_some_self (findClaim_mem hfc))
    have hdm : m.deleted = none := (claimableB_iff.mp (findClaim_claimable hfc)).1
    have hndmid : m.id ∉ l₁.map Record.id ++ l₂.map Record.id := by
      rw [hl, List.map_append, List.map_cons] at hnd
      exact (List.nodup_cons.mp (List.nodup_middle.mp hnd)).1
    have hl₁id : ∀ x ∈ l₁,
        (decide (x.id = (claimUpdate now vis tok m).id) && x.deleted.isNone) = false := by
      intro x hx
      have hne : x.id ≠ m.id := by
        intro he
        exact hndmid (List.mem_append.mpr (Or.inl (he ▸ List.mem_map_of_mem Record.id hx)))
      have : x.id ≠ (claimUpdate now vis tok m).id := hne
      simp [this]
    have hm'match : (decide ((claimUpdate now vis tok m).id =
        (claimUpdate now vis tok m).id) &&
        (claimUpdate now vis tok m).deleted.isNone) = true := by
      refine (Bool.and_eq_true _ _).mpr ⟨by simp, ?_⟩
      rw [show (claimUpdate now vis tok m).deleted = m.deleted from rfl, hdm]
      rfl
    have hmd1 : (Queue.moveToDLQ cfg now (claimUpdate now vis tok m)
        (updateFirst (fun r => decide (r = m))
          (fun _ => claimUpdate now vis tok m) main) dlq).1 =
        l₁ ++ ({ claimUpdate now vis tok m with deleted := some now } : Record α) :: l₂ := by
      rw [show (Queue.moveToDLQ cfg now (claimUpdate now vis tok m)
          (updateFirst (fun r => decide (r = m))
            (fun _ => claimUpdate now vis tok m) main) dlq).1 =
          updateFirst (fun r => decide (r.id = (claimUpdate now vis tok m).id) &&
              r.deleted.isNone)
            (fun r => { r with deleted := some now })
            (updateFirst (fun r => decide (r = m))
              (fun _ => claimUpdate now vis tok m) main)
          by simp [Queue.moveToDLQ, hgd.1]]
      rw [hu, updateFirst_append_cons hl₁id hm'match l₂]
    have hmd2 : (Queue.moveToDLQ cfg now (claimUpdate now vis tok m)
        (updateFirst (fun r => decide (r = m))
          (fun _ => claimUpdate now vis tok m) main) dlq).2 =
        dlq ++ [claimUpdate now vis tok m] := by
      simp [Queue.moveToDLQ, hgd.1]
    have hnd' : (((Queue.moveToDLQ cfg now (claimUpdate now vis tok m)
        (updateFirst (fun r => decide (r = m))
          (fun _ => claimUpdate now vis tok m) main) dlq).1).map Record.id).Nodup := by
      rw [hmd1]
      have hmaps : (l₁ ++ ({ claimUpdate now vis tok m with deleted := some now } :
          Record α) :: l₂).map Record.id = (l₁ ++ m :: l₂).map Record.id := by
        simp [claimUpdate]
      rw [hmaps, ← hl]
      exact hnd
    have ih' : ((Queue.get cfg now vis (tok + 1)
        (Queue.moveToDLQ cfg now (claimUpdate now vis tok m)
          (updateFirst (fun r => decide (r = m))
            (fun _ => claimUpdate now vis tok m) main) dlq).1
        (Queue.moveToDLQ cfg now (claimUpdate now vis tok m)
          (updateFirst (fun r => decide (r = m))
            (fun _ => claimUpdate now vis tok m) main) dlq).2).2.2.1).length +
        Queue.size now ((Queue.get cfg now vis (tok + 1)
          (Queue.moveToDLQ cfg now (claimUpdate now vis tok m)
            (updateFirst (fun r => decide (r = m))
              (fun _ => claimUpdate now vis tok m) main) dlq).1
          (Queue.moveToDLQ cfg now (claimUpdate now vis tok m)
            (updateFirst (fun r => decide (r = m))
              (fun _ => claimUpdate now vis tok m) main) dlq).2).2.1) ≤
        ((Queue.moveToDLQ cfg now (claimUpdate now vis tok m)
          (updateFirst (fun r => decide (r = m))
            (fun _ => claimUpdate now vis tok m) main) dlq).2).length +
        Queue.size now ((Queue.moveToDLQ cfg now (claimUpdate now vis tok m)
          (updateFirst (fun r => decide (r = m))
            (fun _ => claimUpdate now vis tok m) main) dlq).1) := ih hnd'
    have hsz1 : Queue.size now ((Queue.moveToDLQ cfg now (claimUpdate now vis tok m)
        (updateFirst (fun r => decide (r = m))
          (fun _ => claimUpdate now vis tok m) main) dlq).1) + 1 =
        Queue.size now main := by
      rw [hmd1, hl]
      have hcm : claimableB now m = true := findClaim_claimable hfc
      have hcfalse : claimableB now
          ({ claimUpdate now vis tok m with deleted := some now } : Record α) = false := by
        simp [claimableB]
      simp [Queue.size, List.countP_append, List.countP_cons, hcm, hcfalse]
      omega
    refine Nat.le_trans ih' ?_
    rw [hmd2]
    simp only [List.length_append, List.length_cons, List.length_nil]
    omega
  | case3 tok main dlq m hfc hgd =>
    intro hnd
    have hlive : cfg.hasDLQ = false ∨ m.tries + 1 ≤ cfg.maxRetries := by
      rcases Bool.eq_false_or_eq_true cfg.hasDLQ with hDt | hDf
      · right
        by_contra hlt
        exact hgd (by simp [hDt, Nat.lt_of_not_le hlt])
      · exact Or.inl hDf
    rw [get_of_findClaim_some_live hfc hlive]
    obtain ⟨l₁, l₂, hl, hl₁, hu⟩ :=
      updateFirst_decomp (fun _ => claimUpdate now vis tok m)
        (find?_eq_some_self (findClaim_mem hfc))
    have hcm : claimableB now m = true := findClaim_claimable hfc
    rw [hu, hl]
    simp [Queue.size, List.countP_append, List.countP_cons, hcm]
    split <;> omega

/-- Witness for C6 at a concrete input: two poisoned records are both
dead-lettered by one `get()` call. -/
theorem get_poison_recursion_bounded_witness :
    ((Queue.get ({ visibility := 1, delay := 0, maxRetries := 0, hasDLQ := true } : Config)
        0 1 0 [(⟨0, 7, 0, 0, none, none⟩ : Record Nat), ⟨1, 8, 0, 0, none, none⟩]
        []).2.2.1).length +
      Queue.size 0 ((Queue.get
        ({ visibility := 1, delay := 0, maxRetries := 0, hasDLQ := true } : Config)
        0 1 0 [(⟨0, 7, 0, 0, none, none⟩ : Record Nat), ⟨1, 8, 0, 0, none, none⟩]
        []).2.1) ≤
    ([] : List (Record Nat)).length + Queue.size 0
      [(⟨0, 7, 0, 0, none, none⟩ : Record Nat), ⟨1, 8, 0, 0, none, none⟩] :=
  get_poison_recursion_bounded
    ({ visibility := 1, delay := 0, maxRetries := 0, hasDLQ := true } : Config) 0 1 0
    [(⟨0, 7, 0, 0, none, none⟩ : Record Nat), ⟨1, 8, 0, 0, none, none⟩] [] (by decide)

end Claims

end MQueue
